import Mathlib

/-!
Verification of the random-sampling utility `lib/nbd_util/random.py`.

The module defines a class `RNG` with two static methods:

* `uniform(n, lo=0., hi=1.)` — returns `np.random.uniform(low=lo, high=hi, size=n)`;
* `sphere(n)` — draws `cos_t = 2*RNG.uniform(n, 1.0e-6, 1.0-1.0e-6) - 1.0`,
  sets `t = np.arccos(cos_t)`, draws `phi = 2.0*np.pi*RNG.uniform(n)`, and
  returns `CoordsCvt.sphere_to_cart(t, phi).T`.

The embedding models the process-global numpy generator as an abstract entropy
stream `g : ℕ → ℝ` of independent unit-uniform draws (every value in `[0, 1)`)
together with a cursor into that stream; a call to the generator reads the next
`n` stream values and advances the cursor, which is the only state it touches.
`np.random.uniform(low, high, size=n)` maps each unit draw `u` to
`low + (high - low) * u`, its documented inverse-transform for the half-open
interval `[low, high)`. Floating-point rounding is abstracted to exact real
arithmetic. A second layer indexes the size by `ℤ` to model numpy's rejection
of a negative `size` (a `ValueError`), since Python callers may pass any int.
-/

namespace NBD

/-- A unit entropy stream: the abstract source behind `np.random`, producing
independent uniform draws from the half-open interval `[0, 1)`. -/
def UnitStream (g : ℕ → ℝ) : Prop := ∀ i, 0 ≤ g i ∧ g i < 1

/-- The state of the process-global generator: a cursor into the entropy
stream. Each draw of `n` samples advances it by `n`. -/
structure RNGState where
  cursor : ℕ

/-- The error raised by `np.random.uniform` when `size` is negative
(`ValueError: negative dimensions are not allowed`). -/
inductive NpError where
  | negativeDimensions

/-- `np.random.uniform(low=lo, high=hi, size=n)` for a non-negative size:
returns the sequence `lo + (hi - lo) * u` over the next `n` unit draws `u`,
and the state advanced by `n`. -/
noncomputable def npRandomUniform (g : ℕ → ℝ) (lo hi : ℝ) (n : ℕ) (s : RNGState) :
    List ℝ × RNGState :=
  (((List.range n).map fun i => lo + (hi - lo) * g (s.cursor + i)), ⟨s.cursor + n⟩)

/-- `np.random.uniform(low=lo, high=hi, size=n)` for an arbitrary integer size:
numpy raises `ValueError` when `n < 0`, otherwise behaves as
`npRandomUniform`. -/
noncomputable def npRandomUniformInt (g : ℕ → ℝ) (lo hi : ℝ) (n : ℤ) (s : RNGState) :
    Except NpError (List ℝ × RNGState) :=
  if n < 0 then Except.error NpError.negativeDimensions
  else Except.ok (npRandomUniform g lo hi n.toNat s)

namespace CoordsCvt

/-- Modelled from the spec: the coordinate-conversion module `lib/nbd_util/coord.py`
(imported in the source as `from .coord import CoordsCvt`) is not among the
repository files provided. The spec defines the conversion as the standard
spherical-to-Cartesian transform, `x = sin(theta)cos(phi)`,
`y = sin(theta)sin(phi)`, `z = cos(theta)`, applied to parallel sequences of
polar and azimuthal angles; the source's `CoordsCvt.sphere_to_cart(t, phi).T`
yields one Cartesian triple per `(theta, phi)` pair, modelled here as the
sequence of triples directly. -/
noncomputable def sphere_to_cart (t phi : List ℝ) : List (ℝ × ℝ × ℝ) :=
  List.zipWith
    (fun θ φ => (Real.sin θ * Real.cos φ, Real.sin θ * Real.sin φ, Real.cos θ)) t phi

end CoordsCvt

/-- The class `RNG` holds no instance state: its `__init__` stores nothing and
both methods are static. -/
structure RNGObj

namespace RNG

/-- `RNG.uniform(n, lo, hi)`: delegates to `np.random.uniform(low=lo, high=hi, size=n)`
(source defaults: `lo=0.`, `hi=1.`). -/
noncomputable def uniform (g : ℕ → ℝ) (n : ℕ) (lo hi : ℝ) (s : RNGState) :
    List ℝ × RNGState :=
  npRandomUniform g lo hi n s

/-- The first draw of `RNG.sphere`: `RNG.uniform(n, 1.0e-6, 1.0-1.0e-6)`. -/
noncomputable def sphereU (g : ℕ → ℝ) (n : ℕ) (s : RNGState) : List ℝ × RNGState :=
  uniform g n 1e-6 (1 - 1e-6) s

/-- The intermediate `cos_t = 2*RNG.uniform(n, 1.0e-6, 1.0-1.0e-6) - 1.0` of
`RNG.sphere` (numpy broadcasts the affine map over the array). -/
noncomputable def sphereCosT (g : ℕ → ℝ) (n : ℕ) (s : RNGState) : List ℝ :=
  (sphereU g n s).1.map fun u => 2 * u - 1

/-- The intermediate `t = np.arccos(cos_t)` of `RNG.sphere`. -/
noncomputable def sphereT (g : ℕ → ℝ) (n : ℕ) (s : RNGState) : List ℝ :=
  (sphereCosT g n s).map Real.arccos

/-- The second draw of `RNG.sphere`: `RNG.uniform(n)` with the source's default
bounds `lo=0.`, `hi=1.`, issued after the first draw consumed `n` samples. -/
noncomputable def spherePhiU (g : ℕ → ℝ) (n : ℕ) (s : RNGState) : List ℝ × RNGState :=
  uniform g n 0 1 (sphereU g n s).2

/-- The intermediate `phi = 2.0*np.pi*RNG.uniform(n)` of `RNG.sphere`. -/
noncomputable def spherePhi (g : ℕ → ℝ) (n : ℕ) (s : RNGState) : List ℝ :=
  (spherePhiU g n s).1.map fun u => 2 * Real.pi * u

/-- `RNG.sphere(n)`: returns `CoordsCvt.sphere_to_cart(t, phi).T`, with the
generator having consumed the two draws of `n` samples each. -/
noncomputable def sphere (g : ℕ → ℝ) (n : ℕ) (s : RNGState) :
    List (ℝ × ℝ × ℝ) × RNGState :=
  (CoordsCvt.sphere_to_cart (sphereT g n s) (spherePhi g n s), (spherePhiU g n s).2)

/-- `RNG.uniform(n, lo, hi)` for an arbitrary integer count, as a Python caller
may pass one: the count is forwarded unvalidated to `np.random.uniform`. -/
noncomputable def uniformInt (g : ℕ → ℝ) (n : ℤ) (lo hi : ℝ) (s : RNGState) :
    Except NpError (List ℝ × RNGState) :=
  npRandomUniformInt g lo hi n s

/-- `RNG.sphere(n)` for an arbitrary integer count: each of the two inner
`RNG.uniform` calls may raise, and a raised `ValueError` propagates out of
`sphere` (Python exception semantics, modelled by `Except`). -/
noncomputable def sphereInt (g : ℕ → ℝ) (n : ℤ) (s : RNGState) :
    Except NpError (List (ℝ × ℝ × ℝ) × RNGState) := do
  let p1 ← uniformInt g n 1e-6 (1 - 1e-6) s
  let cosT := p1.1.map fun u => 2 * u - 1
  let t := cosT.map Real.arccos
  let p2 ← uniformInt g n 0 1 p1.2
  let phi := p2.1.map fun u => 2 * Real.pi * u
  return (CoordsCvt.sphere_to_cart t phi, p2.2)

end RNG

/-- For a non-negative count the integer-indexed embedding agrees with the
natural-number one: `uniformInt` returns `Except.ok` of `uniform`. -/
theorem uniformInt_coe (g : ℕ → ℝ) (n : ℕ) (lo hi : ℝ) (s : RNGState) :
    RNG.uniformInt g (n : ℤ) lo hi s = Except.ok (RNG.uniform g n lo hi s) := by
  simp [RNG.uniformInt, npRandomUniformInt, RNG.uniform]

/-- For a non-negative count the integer-indexed embedding agrees with the
natural-number one: `sphereInt` returns `Except.ok` of `sphere`. -/
theorem sphereInt_coe (g : ℕ → ℝ) (n : ℕ) (s : RNGState) :
    RNG.sphereInt g (n : ℤ) s = Except.ok (RNG.sphere g n s) := by
  simp [RNG.sphereInt, uniformInt_coe, RNG.sphere, RNG.sphereT, RNG.sphereCosT,
    RNG.spherePhi, RNG.spherePhiU, RNG.sphereU, Bind.bind, Except.bind, Pure.pure,
    Except.pure]

/-! ### Computation lemmas for the embedding -/

/-- The values `np.random.uniform` returns: `lo + (hi - lo) * u` over the next
`n` unit draws. -/
theorem uniform_fst (g : ℕ → ℝ) (n : ℕ) (lo hi : ℝ) (s : RNGState) :
    (RNG.uniform g n lo hi s).1 =
      (List.range n).map fun i => lo + (hi - lo) * g (s.cursor + i) := rfl

/-- A draw of `n` samples advances the cursor by exactly `n`. -/
theorem uniform_snd (g : ℕ → ℝ) (n : ℕ) (lo hi : ℝ) (s : RNGState) :
    (RNG.uniform g n lo hi s).2 = ⟨s.cursor + n⟩ := rfl

/-- Each value of `RNG.uniform g n lo hi` lies in `[lo, hi)` when `lo < hi`. -/
theorem uniform_mem_Ico (g : ℕ → ℝ) (hg : UnitStream g) (n : ℕ) (lo hi : ℝ)
    (hlh : lo < hi) (s : RNGState) :
    ∀ v ∈ (RNG.uniform g n lo hi s).1, lo ≤ v ∧ v < hi := by
  intro v hv
  rw [uniform_fst] at hv
  obtain ⟨i, _, rfl⟩ := List.mem_map.mp hv
  obtain ⟨h0, h1⟩ := hg (s.cursor + i)
  constructor
  · nlinarith
  · nlinarith

/-- `zipWith` of two maps over the same index range is a single map. -/
theorem zipWith_map_range {α β γ : Type} (f : α → β → γ) (a : ℕ → α) (b : ℕ → β)
    (n : ℕ) :
    List.zipWith f ((List.range n).map a) ((List.range n).map b) =
      (List.range n).map fun i => f (a i) (b i) := by
  induction n with
  | zero => simp
  | succ m ih =>
    rw [List.range_succ, List.map_append, List.map_append,
      List.zipWith_append _ _ _ _ _ (by simp), ih]
    simp

/-- The map the source applies to each unit draw of `sphere`'s first batch:
`u ↦ 2*(1e-6 + ((1 - 1e-6) - 1e-6)*u) - 1`, the composition of
`np.random.uniform`'s affine transport to `[1e-6, 1-1e-6)` with
`cos_t = 2*u - 1`. -/
noncomputable def zOfUnit (v : ℝ) : ℝ := 2 * (1e-6 + ((1 - 1e-6) - 1e-6) * v) - 1

/-- The polar angle `t` of the `i`-th point of a `sphere` batch, as a function
of the entropy stream. -/
noncomputable def thetaAt (g : ℕ → ℝ) (s : RNGState) (i : ℕ) : ℝ :=
  Real.arccos (zOfUnit (g (s.cursor + i)))

/-- The azimuthal angle `phi` of the `i`-th point of a `sphere` batch: the
second draw starts after the first consumed `n` stream values. -/
noncomputable def phiAt (g : ℕ → ℝ) (n : ℕ) (s : RNGState) (i : ℕ) : ℝ :=
  2 * Real.pi * g (s.cursor + n + i)

/-- The intermediate `cos_t` list of `sphere`, computed. -/
theorem sphereCosT_eq (g : ℕ → ℝ) (n : ℕ) (s : RNGState) :
    RNG.sphereCosT g n s = (List.range n).map fun i => zOfUnit (g (s.cursor + i)) := by
  simp [RNG.sphereCosT, RNG.sphereU, RNG.uniform, npRandomUniform, List.map_map,
    Function.comp, zOfUnit]

/-- The intermediate `t` list of `sphere`, computed. -/
theorem sphereT_eq (g : ℕ → ℝ) (n : ℕ) (s : RNGState) :
    RNG.sphereT g n s = (List.range n).map (thetaAt g s) := by
  rw [RNG.sphereT, sphereCosT_eq, List.map_map]
  simp [Function.comp, thetaAt]

/-- The intermediate `phi` list of `sphere`, computed. -/
theorem spherePhi_eq (g : ℕ → ℝ) (n : ℕ) (s : RNGState) :
    RNG.spherePhi g n s = (List.range n).map (phiAt g n s) := by
  simp [RNG.spherePhi, RNG.spherePhiU, RNG.sphereU, RNG.uniform, npRandomUniform,
    List.map_map, Function.comp, phiAt]

/-- The point list of `sphere`, computed: the `i`-th point is the
spherical-to-Cartesian image of `(thetaAt i, phiAt i)`. -/
theorem sphere_fst (g : ℕ → ℝ) (n : ℕ) (s : RNGState) :
    (RNG.sphere g n s).1 = (List.range n).map fun i =>
      (Real.sin (thetaAt g s i) * Real.cos (phiAt g n s i),
       Real.sin (thetaAt g s i) * Real.sin (phiAt g n s i),
       Real.cos (thetaAt g s i)) := by
  show CoordsCvt.sphere_to_cart (RNG.sphereT g n s) (RNG.spherePhi g n s) = _
  rw [sphereT_eq, spherePhi_eq, CoordsCvt.sphere_to_cart, zipWith_map_range]

/-- The unit interval is carried by `zOfUnit` into `[-1 + 2e-6, 1 - 2e-6)`. -/
theorem zOfUnit_bounds (v : ℝ) (h0 : 0 ≤ v) (h1 : v < 1) :
    -1 + 2 * 1e-6 ≤ zOfUnit v ∧ zOfUnit v < 1 - 2 * 1e-6 := by
  rw [zOfUnit]
  constructor
  · nlinarith
  · nlinarith

/-- On a unit stream, `cos (thetaAt i)` recovers `zOfUnit` of the draw: the
`arccos` argument always lies inside `[-1, 1]`. -/
theorem cos_thetaAt (g : ℕ → ℝ) (hg : UnitStream g) (s : RNGState) (i : ℕ) :
    Real.cos (thetaAt g s i) = zOfUnit (g (s.cursor + i)) := by
  obtain ⟨h0, h1⟩ := hg (s.cursor + i)
  obtain ⟨hl, hr⟩ := zOfUnit_bounds _ h0 h1
  exact Real.cos_arccos (by nlinarith) (by nlinarith)

/-- The pushforward of the unit-uniform law under an increasing affine map is
uniform: the mass a subinterval of the image receives is its length divided by
the slope. -/
theorem volume_affine_preimage (a b c d : ℝ) (ha : 0 < a) (hbc : b ≤ c)
    (hd : d ≤ b + a) :
    MeasureTheory.volume (Set.preimage (fun v => b + a * v) (Set.Ico c d) ∩
        Set.Ico (0:ℝ) 1) =
      ENNReal.ofReal ((d - c) / a) := by
  have hpre : Set.preimage (fun v => b + a * v) (Set.Ico c d)
      = Set.Ico ((c - b) / a) ((d - b) / a) := by
    ext v
    simp only [Set.mem_preimage, Set.mem_Ico]
    constructor
    · rintro ⟨h1, h2⟩
      exact ⟨(div_le_iff₀ ha).mpr (by nlinarith), (lt_div_iff₀ ha).mpr (by nlinarith)⟩
    · rintro ⟨h1, h2⟩
      have h1' := (div_le_iff₀ ha).mp h1
      have h2' := (lt_div_iff₀ ha).mp h2
      exact ⟨by nlinarith, by nlinarith⟩
  have hsub : Set.Ico ((c - b) / a) ((d - b) / a) ⊆ Set.Ico (0:ℝ) 1 := by
    apply Set.Ico_subset_Ico
    · exact div_nonneg (by linarith) ha.le
    · rw [div_le_one ha]; linarith
  rw [hpre, Set.inter_eq_left.mpr hsub, Real.volume_Ico, div_sub_div_same]
  congr 1
  ring

/-- The `z`-coordinates of a `sphere` batch are the images under `zOfUnit` of
the first `n` unit draws: `arccos` then `cos` round-trips on a unit stream. -/
theorem sphere_z_eq (g : ℕ → ℝ) (hg : UnitStream g) (n : ℕ) (s : RNGState) :
    ((RNG.sphere g n s).1.map fun p => p.2.2) =
      (List.range n).map fun i => zOfUnit (g (s.cursor + i)) := by
  rw [sphere_fst, List.map_map]
  exact List.map_congr_left fun i _ => cos_thetaAt g hg s i

/-- On a unit stream, `zOfUnit` of a draw lies strictly inside `(-1, 1)`. -/
theorem zOfUnit_strict (v : ℝ) (h0 : 0 ≤ v) (h1 : v < 1) :
    -1 < zOfUnit v ∧ zOfUnit v < 1 := by
  obtain ⟨hl, hr⟩ := zOfUnit_bounds v h0 h1
  have e1 : (0:ℝ) < 2 * 1e-6 := by norm_num
  exact ⟨by linarith, by linarith⟩

/-- `arccos` stays below `π` strictly on arguments above `-1`. -/
theorem arccos_lt_pi_of_neg_one_lt {x : ℝ} (h : -1 < x) :
    Real.arccos x < Real.pi := by
  rcases lt_or_eq_of_le (Real.arccos_le_pi x) with h' | h'
  · exact h'
  · exact absurd (Real.arccos_eq_pi.mp h') (by linarith)

/-! ### The claims -/

/-- C1. For every `n ≥ 0` (and any entropy stream), `sphere(n)` returns an
ordered sequence of exactly `n` Cartesian triples, each of Euclidean norm
exactly 1 under real arithmetic; in particular `sphere(0)` is empty. -/
theorem sphere_length_unit_norm (g : ℕ → ℝ) (n : ℕ) (s : RNGState) :
    (RNG.sphere g n s).1.length = n ∧
    (∀ p ∈ (RNG.sphere g n s).1, p.1 ^ 2 + p.2.1 ^ 2 + p.2.2 ^ 2 = 1) ∧
    (RNG.sphere g 0 s).1 = [] := by
  refine ⟨by rw [sphere_fst]; simp, ?_, by rw [sphere_fst]; simp⟩
  intro p hp
  rw [sphere_fst] at hp
  obtain ⟨i, _, rfl⟩ := List.mem_map.mp hp
  dsimp only
  have h1 := Real.sin_sq_add_cos_sq (thetaAt g s i)
  have h2 := Real.sin_sq_add_cos_sq (phiAt g n s i)
  nlinarith [h1, h2]

/-- C2. On a unit entropy stream, for `lo < hi`, `uniform(n, lo, hi)` returns
exactly `n` values, each in `[lo, hi)`; `uniform(0, lo, hi)` is empty; and with
the source's default bounds the values lie in `[0, 1)`. -/
theorem uniform_length_range (g : ℕ → ℝ) (hg : UnitStream g) (n : ℕ) (lo hi : ℝ)
    (hlh : lo < hi) (s : RNGState) :
    (RNG.uniform g n lo hi s).1.length = n ∧
    (∀ v ∈ (RNG.uniform g n lo hi s).1, lo ≤ v ∧ v < hi) ∧
    (RNG.uniform g 0 lo hi s).1 = [] ∧
    (∀ v ∈ (RNG.uniform g n 0 1 s).1, 0 ≤ v ∧ v < 1) := by
  exact ⟨by rw [uniform_fst]; simp,
    uniform_mem_Ico g hg n lo hi hlh s,
    by rw [uniform_fst]; simp,
    uniform_mem_Ico g hg n 0 1 (by norm_num) s⟩

/-- Witness for C2 at the concrete stream `fun i => 1/2`, `n = 2`,
`lo = 0`, `hi = 1`. -/
theorem uniform_length_range_witness :
    (RNG.uniform (fun _ => (1/2 : ℝ)) 2 0 1 ⟨0⟩).1.length = 2 ∧
    (∀ v ∈ (RNG.uniform (fun _ => (1/2 : ℝ)) 2 0 1 ⟨0⟩).1, (0:ℝ) ≤ v ∧ v < 1) ∧
    (RNG.uniform (fun _ => (1/2 : ℝ)) 0 0 1 ⟨0⟩).1 = [] ∧
    (∀ v ∈ (RNG.uniform (fun _ => (1/2 : ℝ)) 2 0 1 ⟨0⟩).1, (0:ℝ) ≤ v ∧ v < 1) :=
  uniform_length_range (fun _ => (1/2 : ℝ)) (fun _ => by norm_num) 2 0 1
    (by norm_num) ⟨0⟩

/-- C3. On a unit entropy stream, the `z`-coordinate of each returned point is
the image of the corresponding unit draw under the fixed affine map `zOfUnit`,
and that map pushes the uniform unit law forward to the uniform law on
`[-1 + 2e-6, 1 - 2e-6)`: every subinterval `[c, d)` of the range receives mass
`(d - c)/(2 - 4e-6)`, i.e. the `z`-coordinates are uniform over `[-1, 1]` up to
the `1e-6` epsilon margin, as the area-correcting `arccos` transform demands. -/
theorem sphere_z_pushforward_uniform (g : ℕ → ℝ) (hg : UnitStream g) (n : ℕ)
    (s : RNGState) :
    ((RNG.sphere g n s).1.map fun p => p.2.2) =
      ((List.range n).map fun i => zOfUnit (g (s.cursor + i))) ∧
    (∀ c d : ℝ, -1 + 2 * 1e-6 ≤ c → c ≤ d → d ≤ 1 - 2 * 1e-6 →
      MeasureTheory.volume (Set.preimage zOfUnit (Set.Ico c d) ∩ Set.Ico (0:ℝ) 1) =
        ENNReal.ofReal ((d - c) / (2 - 4 * 1e-6))) := by
  refine ⟨sphere_z_eq g hg n s, ?_⟩
  intro c d hc hcd hd
  have hz : zOfUnit = fun v => (2 * 1e-6 - 1) + (2 - 4 * 1e-6) * v := by
    funext v; rw [zOfUnit]; ring
  rw [hz]
  exact volume_affine_preimage (2 - 4 * 1e-6) (2 * 1e-6 - 1) c d (by norm_num)
    (by linarith) (by linarith)

/-- Witness for C3 at the concrete stream `fun i => 1/2`, `n = 1`. -/
theorem sphere_z_pushforward_uniform_witness :
    ((RNG.sphere (fun _ => (1/2 : ℝ)) 1 ⟨0⟩).1.map fun p => p.2.2) =
      ((List.range 1).map fun i => zOfUnit ((fun _ => (1/2 : ℝ)) ((0:ℕ) + i))) ∧
    (∀ c d : ℝ, -1 + 2 * 1e-6 ≤ c → c ≤ d → d ≤ 1 - 2 * 1e-6 →
      MeasureTheory.volume (Set.preimage zOfUnit (Set.Ico c d) ∩ Set.Ico (0:ℝ) 1) =
        ENNReal.ofReal ((d - c) / (2 - 4 * 1e-6))) :=
  sphere_z_pushforward_uniform (fun _ => (1/2 : ℝ)) (fun _ => by norm_num) 1 ⟨0⟩

/-- C4. On a unit entropy stream, composing `theta = arccos(cos_t)` with
`z = cos(theta)` is a round-trip: the `z`-coordinates of the returned points
are exactly `2*u - 1` over the drawn uniform samples `u` of the first batch. -/
theorem sphere_z_round_trip (g : ℕ → ℝ) (hg : UnitStream g) (n : ℕ)
    (s : RNGState) :
    ((RNG.sphere g n s).1.map fun p => p.2.2) =
      (RNG.sphereU g n s).1.map fun u => 2 * u - 1 := by
  rw [sphere_z_eq g hg n s]
  show _ = ((RNG.uniform g n 1e-6 (1 - 1e-6) s).1.map fun u => 2 * u - 1)
  rw [uniform_fst, List.map_map]
  exact List.map_congr_left fun i _ => rfl

/-- Witness for C4 at the concrete stream `fun i => 1/2`, `n = 1`. -/
theorem sphere_z_round_trip_witness :
    ((RNG.sphere (fun _ => (1/2 : ℝ)) 1 ⟨0⟩).1.map fun p => p.2.2) =
      (RNG.sphereU (fun _ => (1/2 : ℝ)) 1 ⟨0⟩).1.map fun u => 2 * u - 1 :=
  sphere_z_round_trip (fun _ => (1/2 : ℝ)) (fun _ => by norm_num) 1 ⟨0⟩

/-- C5, counterexample. The first batch of `sphere` is drawn from the
half-open interval `[1e-6, 1 - 1e-6)`, not the open one: on the valid unit
stream that yields the draw `0`, the sample `u = 1e-6` is returned and the
claimed strict lower bound `1e-6 < u` fails at it. -/
theorem sphereU_attains_lower_endpoint :
    UnitStream (fun _ => (0:ℝ)) ∧
    (RNG.sphereU (fun _ => (0:ℝ)) 1 ⟨0⟩).1 = [1e-6] ∧
    ¬ ((1e-6 : ℝ) < 1e-6) := by
  refine ⟨fun i => by norm_num, ?_, by norm_num⟩
  show (RNG.uniform (fun _ => (0:ℝ)) 1 1e-6 (1 - 1e-6) ⟨0⟩).1 = [1e-6]
  rw [uniform_fst]
  norm_num

/-- C5, amended. On a unit entropy stream, every intermediate uniform sample
`u` of `sphere`'s first batch lies in the half-open interval
`[1e-6, 1 - 1e-6)`: the lower endpoint may be attained, the upper never is. -/
theorem sphereU_mem_Ico (g : ℕ → ℝ) (hg : UnitStream g) (n : ℕ) (s : RNGState) :
    ∀ u ∈ (RNG.sphereU g n s).1, 1e-6 ≤ u ∧ u < 1 - 1e-6 :=
  uniform_mem_Ico g hg n 1e-6 (1 - 1e-6) (by norm_num) s

/-- Witness for the amended C5 at the concrete stream `fun i => 1/2`. -/
theorem sphereU_mem_Ico_witness :
    UnitStream (fun _ => (1/2 : ℝ)) ∧
    ∀ u ∈ (RNG.sphereU (fun _ => (1/2 : ℝ)) 1 ⟨0⟩).1, (1e-6 : ℝ) ≤ u ∧ u < 1 - 1e-6 :=
  ⟨fun _ => by norm_num,
   sphereU_mem_Ico (fun _ => (1/2 : ℝ)) (fun _ => by norm_num) 1 ⟨0⟩⟩

/-- C6. On a unit entropy stream, every intermediate `cos_t` value lies
strictly inside `(-1, 1)` — so `arccos` always receives an in-domain argument —
every polar angle `t` lies strictly inside `(0, π)`, and no returned point has
`z`-coordinate exactly `1` or `-1`: the poles are avoided. -/
theorem sphere_avoids_poles (g : ℕ → ℝ) (hg : UnitStream g) (n : ℕ)
    (s : RNGState) :
    (∀ c ∈ RNG.sphereCosT g n s, -1 < c ∧ c < 1) ∧
    (∀ θ ∈ RNG.sphereT g n s, 0 < θ ∧ θ < Real.pi) ∧
    (∀ p ∈ (RNG.sphere g n s).1, p.2.2 ≠ 1 ∧ p.2.2 ≠ -1) := by
  refine ⟨?_, ?_, ?_⟩
  · intro c hc
    rw [sphereCosT_eq] at hc
    obtain ⟨i, _, rfl⟩ := List.mem_map.mp hc
    obtain ⟨h0, h1⟩ := hg (s.cursor + i)
    exact zOfUnit_strict _ h0 h1
  · intro θ hθ
    rw [sphereT_eq] at hθ
    obtain ⟨i, _, rfl⟩ := List.mem_map.mp hθ
    obtain ⟨h0, h1⟩ := hg (s.cursor + i)
    obtain ⟨hm1, hp1⟩ := zOfUnit_strict _ h0 h1
    exact ⟨Real.arccos_pos.mpr hp1, arccos_lt_pi_of_neg_one_lt hm1⟩
  · intro p hp
    rw [sphere_fst] at hp
    obtain ⟨i, _, rfl⟩ := List.mem_map.mp hp
    dsimp only
    rw [cos_thetaAt g hg s i]
    obtain ⟨h0, h1⟩ := hg (s.cursor + i)
    obtain ⟨hm1, hp1⟩ := zOfUnit_strict _ h0 h1
    exact ⟨ne_of_lt hp1, ne_of_gt hm1⟩

/-- Witness for C6 at the concrete stream `fun i => 1/2`, `n = 1`. -/
theorem sphere_avoids_poles_witness :
    (∀ c ∈ RNG.sphereCosT (fun _ => (1/2 : ℝ)) 1 ⟨0⟩, -1 < c ∧ c < 1) ∧
    (∀ θ ∈ RNG.sphereT (fun _ => (1/2 : ℝ)) 1 ⟨0⟩, 0 < θ ∧ θ < Real.pi) ∧
    (∀ p ∈ (RNG.sphere (fun _ => (1/2 : ℝ)) 1 ⟨0⟩).1, p.2.2 ≠ 1 ∧ p.2.2 ≠ -1) :=
  sphere_avoids_poles (fun _ => (1/2 : ℝ)) (fun _ => by norm_num) 1 ⟨0⟩

/-- C7. On a unit entropy stream, `sphere`'s azimuthal angles are exactly
`2π·u` over the second batch of unit draws `u ∈ [0, 1)`; every angle lies in
`[0, 2π)`, and the map `u ↦ 2π·u` pushes the uniform unit law forward to the
uniform law on `[0, 2π)`: every subinterval `[c, d)` receives mass
`(d - c)/(2π)`. -/
theorem spherePhi_range_uniform (g : ℕ → ℝ) (hg : UnitStream g) (n : ℕ)
    (s : RNGState) :
    (∀ u ∈ (RNG.spherePhiU g n s).1, 0 ≤ u ∧ u < 1) ∧
    (RNG.spherePhi g n s = (RNG.spherePhiU g n s).1.map fun u => 2 * Real.pi * u) ∧
    (∀ φ ∈ RNG.spherePhi g n s, 0 ≤ φ ∧ φ < 2 * Real.pi) ∧
    (∀ c d : ℝ, 0 ≤ c → c ≤ d → d ≤ 2 * Real.pi →
      MeasureTheory.volume (Set.preimage (fun v => 2 * Real.pi * v) (Set.Ico c d) ∩
          Set.Ico (0:ℝ) 1) =
        ENNReal.ofReal ((d - c) / (2 * Real.pi))) := by
  have hpi := Real.pi_pos
  refine ⟨uniform_mem_Ico g hg n 0 1 (by norm_num) _, rfl, ?_, ?_⟩
  · intro φ hφ
    rw [spherePhi_eq] at hφ
    obtain ⟨i, _, rfl⟩ := List.mem_map.mp hφ
    obtain ⟨h0, h1⟩ := hg (s.cursor + n + i)
    rw [phiAt]
    constructor <;> nlinarith
  · intro c d hc hcd hd
    have hm : (fun v : ℝ => 2 * Real.pi * v) = fun v => 0 + 2 * Real.pi * v := by
      funext v; ring
    rw [hm]
    exact volume_affine_preimage (2 * Real.pi) 0 c d (by linarith) hc (by linarith)

/-- Witness for C7 at the concrete stream `fun i => 1/2`, `n = 1`. -/
theorem spherePhi_range_uniform_witness :
    (∀ u ∈ (RNG.spherePhiU (fun _ => (1/2 : ℝ)) 1 ⟨0⟩).1, (0:ℝ) ≤ u ∧ u < 1) ∧
    (RNG.spherePhi (fun _ => (1/2 : ℝ)) 1 ⟨0⟩ =
      (RNG.spherePhiU (fun _ => (1/2 : ℝ)) 1 ⟨0⟩).1.map fun u => 2 * Real.pi * u) ∧
    (∀ φ ∈ RNG.spherePhi (fun _ => (1/2 : ℝ)) 1 ⟨0⟩, 0 ≤ φ ∧ φ < 2 * Real.pi) ∧
    (∀ c d : ℝ, 0 ≤ c → c ≤ d → d ≤ 2 * Real.pi →
      MeasureTheory.volume (Set.preimage (fun v => 2 * Real.pi * v) (Set.Ico c d) ∩
          Set.Ico (0:ℝ) 1) =
        ENNReal.ofReal ((d - c) / (2 * Real.pi))) :=
  spherePhi_range_uniform (fun _ => (1/2 : ℝ)) (fun _ => by norm_num) 1 ⟨0⟩

/-- C8. Every call is side-effect-free except for advancing the shared
generator: a `uniform` call moves the cursor forward by exactly `n`, a `sphere`
call by exactly `2n`, the returned values depend on nothing but the consumed
window of the entropy stream, and the `RNG` class holds no instance state at
all (all its values are equal). -/
theorem rng_frame (g g' : ℕ → ℝ) (n : ℕ) (lo hi : ℝ) (s : RNGState)
    (hgg : ∀ i, i < n + n → g (s.cursor + i) = g' (s.cursor + i)) :
    (RNG.uniform g n lo hi s).2 = ⟨s.cursor + n⟩ ∧
    (RNG.sphere g n s).2 = ⟨s.cursor + (n + n)⟩ ∧
    (RNG.uniform g n lo hi s).1 = (RNG.uniform g' n lo hi s).1 ∧
    (RNG.sphere g n s).1 = (RNG.sphere g' n s).1 ∧
    (∀ a b : RNGObj, a = b) := by
  refine ⟨uniform_snd g n lo hi s, ?_, ?_, ?_, ?_⟩
  · simp [RNG.sphere, RNG.spherePhiU, RNG.sphereU, RNG.uniform, npRandomUniform,
      Nat.add_assoc]
  · rw [uniform_fst, uniform_fst]
    refine List.map_congr_left fun i him => ?_
    have hin := List.mem_range.mp him
    rw [hgg i (by omega)]
  · rw [sphere_fst, sphere_fst]
    refine List.map_congr_left fun i him => ?_
    have hin := List.mem_range.mp him
    have hθ : thetaAt g s i = thetaAt g' s i := by
      rw [thetaAt, thetaAt, hgg i (by omega)]
    have hφ : phiAt g n s i = phiAt g' n s i := by
      rw [phiAt, phiAt, Nat.add_assoc, hgg (n + i) (by omega)]
    rw [hθ, hφ]
  · intro a b
    cases a
    cases b
    rfl

/-- Witness for C8 at the concrete streams `fun i => 1/2` (twice), `n = 1`. -/
theorem rng_frame_witness :
    (RNG.uniform (fun _ => (1/2 : ℝ)) 1 0 1 ⟨0⟩).2 = ⟨0 + 1⟩ ∧
    (RNG.sphere (fun _ => (1/2 : ℝ)) 1 ⟨0⟩).2 = ⟨0 + (1 + 1)⟩ ∧
    (RNG.uniform (fun _ => (1/2 : ℝ)) 1 0 1 ⟨0⟩).1 =
      (RNG.uniform (fun _ => (1/2 : ℝ)) 1 0 1 ⟨0⟩).1 ∧
    (RNG.sphere (fun _ => (1/2 : ℝ)) 1 ⟨0⟩).1 =
      (RNG.sphere (fun _ => (1/2 : ℝ)) 1 ⟨0⟩).1 ∧
    (∀ a b : RNGObj, a = b) :=
  rng_frame (fun _ => (1/2 : ℝ)) (fun _ => (1/2 : ℝ)) 1 0 1 ⟨0⟩ (fun _ _ => rfl)

/-- C9. For a negative count `n`, `uniform(n, lo, hi)` does not return a
sequence: the unvalidated count reaches `np.random.uniform`, which rejects a
negative size with `ValueError`, and `sphere(n)` — whose first inner call is
`uniform(n, 1e-6, 1-1e-6)` — propagates the same error. -/
theorem negative_count_error (g : ℕ → ℝ) (n : ℤ) (hn : n < 0) (lo hi : ℝ)
    (s : RNGState) :
    RNG.uniformInt g n lo hi s = Except.error NpError.negativeDimensions ∧
    RNG.sphereInt g n s = Except.error NpError.negativeDimensions := by
  have hu : ∀ lo' hi' : ℝ, ∀ s' : RNGState,
      RNG.uniformInt g n lo' hi' s' = Except.error NpError.negativeDimensions := by
    intro lo' hi' s'
    rw [RNG.uniformInt, npRandomUniformInt, if_pos hn]
  exact ⟨hu lo hi s, by simp [RNG.sphereInt, hu, Bind.bind, Except.bind]⟩

/-- Witness for C9 at the concrete count `n = -1`. -/
theorem negative_count_error_witness :
    RNG.uniformInt (fun _ => (1/2 : ℝ)) (-1) 0 1 ⟨0⟩ =
      Except.error NpError.negativeDimensions ∧
    RNG.sphereInt (fun _ => (1/2 : ℝ)) (-1) ⟨0⟩ =
      Except.error NpError.negativeDimensions :=
  negative_count_error (fun _ => (1/2 : ℝ)) (-1) (by norm_num) 0 1 ⟨0⟩

/-- C10. `uniform(n, lo, hi)` validates nothing: for every `lo`, `hi` each
returned value is exactly `lo + (hi - lo)·u` for the corresponding unit draw
`u ∈ [0, 1)`; hence with `lo = hi` every value equals `lo`, and with `hi < lo`
the values lie in the inverted half-open interval `(hi, lo]` instead of an
error being raised. -/
theorem uniform_unvalidated_bounds (g : ℕ → ℝ) (hg : UnitStream g) (n : ℕ)
    (lo hi : ℝ) (s : RNGState) :
    ((RNG.uniform g n lo hi s).1 =
      (List.range n).map fun i => lo + (hi - lo) * g (s.cursor + i)) ∧
    (∀ v ∈ (RNG.uniform g n lo lo s).1, v = lo) ∧
    (hi < lo → ∀ v ∈ (RNG.uniform g n lo hi s).1, hi < v ∧ v ≤ lo) := by
  refine ⟨rfl, ?_, ?_⟩
  · intro v hv
    rw [uniform_fst] at hv
    obtain ⟨i, _, rfl⟩ := List.mem_map.mp hv
    simp
  · intro hil v hv
    rw [uniform_fst] at hv
    obtain ⟨i, _, rfl⟩ := List.mem_map.mp hv
    obtain ⟨h0, h1⟩ := hg (s.cursor + i)
    constructor <;> nlinarith

/-- Witness for C10 at the concrete stream `fun i => 1/2`, `n = 1`, inverted
bounds `lo = 1`, `hi = 0`. -/
theorem uniform_unvalidated_bounds_witness :
    ((RNG.uniform (fun _ => (1/2 : ℝ)) 1 1 0 ⟨0⟩).1 =
      (List.range 1).map fun i => 1 + ((0:ℝ) - 1) * (fun _ => (1/2 : ℝ)) ((0:ℕ) + i)) ∧
    (∀ v ∈ (RNG.uniform (fun _ => (1/2 : ℝ)) 1 1 1 ⟨0⟩).1, v = 1) ∧
    ((0:ℝ) < 1 → ∀ v ∈ (RNG.uniform (fun _ => (1/2 : ℝ)) 1 1 0 ⟨0⟩).1,
      (0:ℝ) < v ∧ v ≤ 1) :=
  uniform_unvalidated_bounds (fun _ => (1/2 : ℝ)) (fun _ => by norm_num) 1 1 0 ⟨0⟩

end NBD
